import Mathlib

/-!
Verification of the CLOCK cache family of `futile/cache.py`
(`ClockCache`, `ExpiringClockCache`) and of the import structure of
`futile/cache/expiring_cache.py`, as a shallow embedding in Lean.

Python dictionaries are embedded as association lists with unique keys
(`dictLookup`, `dictPop`, `dictInsert` mirror `d[k]` / `d.get`,
`d.pop(k, default)` and `d[k] = v`).  The `_MARKER` sentinel used for
empty slots is embedded as `Option.none` in `clock_keys`.  Machine
integers of the source are plain `Nat` (no overflow is reachable: all
counters only grow by 1 per call).  A Python statement that raises is
embedded by an outcome record carrying the state at the raise point and
a `raised` flag.
-/

set_option autoImplicit false

namespace Futile

/-- Cache keys; Python object identity specialised to a countable type. -/
abbrev Key := Nat

/-- Cached values. -/
abbrev Val := Nat

/-- One entry of the `data` dict of `ClockCache`: key paired with
(slot position, stored value), as in `self.data[key] = hand, val`. -/
abbrev Entry := Key × Nat × Val

/-- Embedding of `self.data[key]` lookup (first matching key; a Python
dict holds each key at most once, which the development tracks as a
`Nodup` invariant). -/
def dictLookup : List Entry → Key → Option (Nat × Val)
  | [], _ => none
  | (k', pv) :: rest, k => if k' = k then some pv else dictLookup rest k

/-- Embedding of `self.data.pop(key, _MARKER)`: returns the popped
entry (or `none` when the key is absent, i.e. the `_MARKER` default)
together with the remaining dict. -/
def dictPop : List Entry → Key → Option (Nat × Val) × List Entry
  | [], _ => (none, [])
  | (k', pv) :: rest, k =>
    if k' = k then (some pv, rest)
    else
      let r := dictPop rest k
      (r.1, (k', pv) :: r.2)

/-- Embedding of `self.data.pop(old_key, _MARKER)` where `old_key` may
be the `_MARKER` sentinel itself (an empty slot): the sentinel is never
a dict key, so popping it is a no-op. -/
def dictPopOpt (d : List Entry) : Option Key → Option (Nat × Val) × List Entry
  | none => (none, d)
  | some k => dictPop d k

/-- Embedding of `self.data[key] = pv`: replace the entry if the key is
present, otherwise append it (Python dicts keep insertion order). -/
def dictInsert : List Entry → Key → Nat × Val → List Entry
  | [], k, pv => [(k, pv)]
  | (k', pv') :: rest, k, pv =>
    if k' = k then (k, pv) :: rest else (k', pv') :: dictInsert rest k pv

/-- State of a `ClockCache` instance (`futile/cache.py`).  `clock_keys`
holds `none` where the source holds the `_MARKER` sentinel.  The
`threading.Lock` only serialises mutations and has no effect on the
sequential semantics embedded here. -/
structure ClockCache where
  size : Nat
  hand : Nat
  clock_keys : List (Option Key)
  clock_refs : List Bool
  data : List Entry
  evictions : Nat
  hits : Nat
  misses : Nat
  lookups : Nat
  deriving DecidableEq

/-- Embedding of `ClockCache.clear`: reset hand, slots, dict and all
counters; the capacity `size` is kept. -/
def ClockCache.clear (c : ClockCache) : ClockCache :=
  { c with
    hand := 0
    clock_keys := List.replicate c.size none
    clock_refs := List.replicate c.size false
    data := []
    evictions := 0
    hits := 0
    misses := 0
    lookups := 0 }

/-- Embedding of `ClockCache.__init__(size)` after its
`assert size >= 1` has passed: the constructor body sets the fields and
then calls `clear`, which builds the real initial state. -/
def ClockCache.init (size : Nat) : ClockCache :=
  ClockCache.clear
    { size := size, hand := 0, clock_keys := [], clock_refs := [],
      data := [], evictions := 0, hits := 0, misses := 0, lookups := 0 }

/-- Embedding of `ClockCache.get(key, default)`.  The source increments
`lookups`, then tries `pos, val = self.data[key]`; on `KeyError` it
counts a miss and returns the default, otherwise it counts a hit, sets
the slot's reference bit and returns the value.  (The source indexes
`self.clock_refs[pos]`; for well-formed states `pos < size`, which the
`WF` invariant below guarantees, so the in-range `List.set` is exact.) -/
def ClockCache.get (c : ClockCache) (k : Key) (default : Option Val) :
    Option Val × ClockCache :=
  let c1 := { c with lookups := c.lookups + 1 }
  match dictLookup c1.data k with
  | none => (default, { c1 with misses := c1.misses + 1 })
  | some (pos, v) =>
    let c2 := { c1 with hits := c1.hits + 1 }
    (some v, { c2 with clock_refs := c2.clock_refs.set pos true })

/-- Bit-clearing arm of one sweep iteration: clear the reference bit at
`hand` and, when the incremented sweep counter `count1` has reached
`size / 2` (`count >= max_count` in the source, with true float
division: equivalently `size <= 2 * count1`), also force-clear the bit
at the advanced position `(hand + 1) % size`. -/
def ClockCache.clearStep (c : ClockCache) (hand count1 : Nat) : ClockCache :=
  if c.size ≤ 2 * count1 then
    { c with
        clock_refs :=
          (c.clock_refs.set hand false).set ((hand + 1) % c.size) false }
  else
    { c with clock_refs := c.clock_refs.set hand false }

/-- Installation arm of the sweep: pop the slot's current key from the
dict (counting an eviction if it was resident), install the new key in
the slot, set its reference bit, record the entry in the dict and store
the advanced hand back into the object. -/
def ClockCache.install (c : ClockCache) (k : Key) (v : Val) (hand : Nat) :
    ClockCache :=
  { c with
      data :=
        dictInsert (dictPopOpt c.data (c.clock_keys.getD hand none)).2 k (hand, v)
      clock_keys := c.clock_keys.set hand (some k)
      clock_refs := c.clock_refs.set hand true
      evictions :=
        c.evictions +
          (if (dictPopOpt c.data (c.clock_keys.getD hand none)).1.isSome then 1
           else 0)
      hand := (hand + 1) % c.size }

/-- Embedding of the `while True` sweep loop inside `ClockCache.put`,
with an explicit fuel argument standing for the unbounded loop (the
development proves fuel `size + 2` always suffices, so the `none`
branch is unreachable from well-formed states).  Returns the state
after installation together with the number of loop iterations: an
iteration either clears bits (`clearStep`, advancing `hand` and
`count`) or installs the new entry (`install`) and breaks. -/
def ClockCache.sweep : ClockCache → Key → Val → Nat → Nat → Nat →
    Option (ClockCache × Nat)
  | _, _, _, 0, _, _ => none
  | c, k, v, fuel + 1, hand, count =>
    if c.clock_refs.getD hand false then
      match (c.clearStep hand (count + 1)).sweep k v fuel ((hand + 1) % c.size)
          (count + 1) with
      | none => none
      | some (cFin, n) => some (cFin, n + 1)
    else
      some (c.install k v hand, 1)

/-- Outcome of a call to `ClockCache.put`: the object state when the
call ends (normally or by an exception) and whether it raised. -/
structure PutOutcome where
  state : ClockCache
  raised : Bool
  deriving DecidableEq

/-- Embedding of `ClockCache.put(key, val)`.  When the key is already
resident the source executes `data[key] = pos, val` — both `data` and
`pos` are unbound local names, so the statement raises `NameError`
before mutating anything (the right-hand side is evaluated first), and
the object state is unchanged.  Otherwise the sweep loop runs; fuel
`size + 2` is proved sufficient below, so the fuel-exhaustion branch
(which would be an infinite loop in Python, and never happens) is dead
code. -/
def ClockCache.put (c : ClockCache) (k : Key) (v : Val) : PutOutcome :=
  match dictLookup c.data k with
  | some _ => { state := c, raised := true }
  | none =>
    match c.sweep k v (c.size + 2) c.hand 0 with
    | some (c', _) => { state := c', raised := false }
    | none => { state := c, raised := true }

/-- Embedding of `ClockCache.invalidate(key)`: pop the key from the
dict; if it was present, clear its slot's reference bit.  The slot's
`clock_keys` cell is NOT reset, so it keeps the stale key.  Counters
are untouched. -/
def ClockCache.invalidate (c : ClockCache) (k : Key) : ClockCache :=
  match dictPop c.data k with
  | (none, _) => c
  | (some (pos, _), d') =>
    { c with data := d', clock_refs := c.clock_refs.set pos false }

/-- One entry of the `data` dict of `ExpiringClockCache`: key paired
with (slot position, stored value, expiry time).  No entry is ever
written (see `ExpiringClockCache.put`), but the type is kept faithful
to `self.data[key] = hand, val, time.time() + self.timeout`. -/
abbrev EntryE := Key × Nat × Val × Nat

/-- Lookup in the `data` dict of `ExpiringClockCache`. -/
def edictLookup : List EntryE → Key → Option (Nat × Val × Nat)
  | [], _ => none
  | (k', pvt) :: rest, k => if k' = k then some pvt else edictLookup rest k

/-- Pop from the `data` dict of `ExpiringClockCache` with a default. -/
def edictPop : List EntryE → Key → Option (Nat × Val × Nat) × List EntryE
  | [], _ => (none, [])
  | (k', pvt) :: rest, k =>
    if k' = k then (some pvt, rest)
    else
      let r := edictPop rest k
      (r.1, (k', pvt) :: r.2)

/-- Pop with a possibly-sentinel key (empty slot). -/
def edictPopOpt (d : List EntryE) : Option Key → Option (Nat × Val × Nat) × List EntryE
  | none => (none, d)
  | some k => edictPop d k

/-- State of an `ExpiringClockCache` instance (`futile/cache.py`). -/
structure ExpiringClockCache where
  size : Nat
  hand : Nat
  clock_keys : List (Option Key)
  clock_refs : List Bool
  data : List EntryE
  timeout : Nat
  evictions : Nat
  hits : Nat
  misses : Nat
  lookups : Nat
  deriving DecidableEq

/-- Embedding of `ExpiringClockCache.clear`. -/
def ExpiringClockCache.clear (c : ExpiringClockCache) : ExpiringClockCache :=
  { c with
    hand := 0
    clock_keys := List.replicate c.size none
    clock_refs := List.replicate c.size false
    data := []
    evictions := 0
    hits := 0
    misses := 0
    lookups := 0 }

/-- Embedding of `ExpiringClockCache.__init__(size, timeout)` after its
assertions (`size >= 1`, `timeout > 0`) have passed. -/
def ExpiringClockCache.init (size timeout : Nat) : ExpiringClockCache :=
  ExpiringClockCache.clear
    { size := size, hand := 0, clock_keys := [], clock_refs := [],
      data := [], timeout := timeout, evictions := 0, hits := 0,
      misses := 0, lookups := 0 }

/-- Outcome of a call on `ExpiringClockCache` that may raise: the
returned value (`none` when the call raised instead of returning), the
object state at the end of the call, and whether it raised. -/
structure EGetOutcome where
  result : Option Val
  state : ExpiringClockCache
  raised : Bool
  deriving DecidableEq

/-- Embedding of `ExpiringClockCache.get(key, default)`.  The module
`futile/cache.py` never imports `time`, so on a successful dict lookup
the expression `ttl > time.time()` raises `NameError`; at that point
`lookups` has already been incremented but neither `hits` nor `misses`
has, and no value is returned.  On `KeyError` the miss path runs
normally and returns the default. -/
def ExpiringClockCache.get (c : ExpiringClockCache) (k : Key)
    (default : Option Val) : EGetOutcome :=
  let c1 := { c with lookups := c.lookups + 1 }
  match edictLookup c1.data k with
  | none =>
    { result := default, state := { c1 with misses := c1.misses + 1 },
      raised := false }
  | some _ => { result := none, state := c1, raised := true }

/-- Embedding of the sweep loop of `ExpiringClockCache.put`.  The
bit-clearing arm is as in `ClockCache.sweep`.  The installation arm
executes the pop, the eviction count, and the `clock_keys` /
`clock_refs` writes, and then `self.data[key] = hand, val,
time.time() + self.timeout` raises `NameError` (`time` is not
imported), so the dict write, the hand advance and the `self.hand`
store never run: the returned state is the partially-mutated object at
the raise point, with `hand` unchanged. -/
def ExpiringClockCache.sweep : ExpiringClockCache → Key → Nat → Nat → Nat →
    Option ExpiringClockCache
  | _, _, 0, _, _ => none
  | c, k, fuel + 1, hand, count =>
    if c.clock_refs.getD hand false then
      let c1 : ExpiringClockCache :=
        { c with clock_refs := c.clock_refs.set hand false }
      let hand1 := (hand + 1) % c.size
      let count1 := count + 1
      let c2 : ExpiringClockCache :=
        if c.size ≤ 2 * count1 then
          { c1 with clock_refs := c1.clock_refs.set hand1 false }
        else c1
      c2.sweep k fuel hand1 count1
    else
      let old_key := c.clock_keys.getD hand none
      let pr := edictPopOpt c.data old_key
      some
        { c with
            data := pr.2
            clock_keys := c.clock_keys.set hand (some k)
            clock_refs := c.clock_refs.set hand true
            evictions := c.evictions + (if pr.1.isSome then 1 else 0) }

/-- Outcome of `ExpiringClockCache.put`. -/
structure EPutOutcome where
  state : ExpiringClockCache
  raised : Bool
  deriving DecidableEq

/-- Embedding of `ExpiringClockCache.put(key, val)`.  Every execution
path raises `NameError`: the already-resident branch evaluates the
unbound name `pos` (and `data`), and the installation arm of the sweep
evaluates the unbound name `time`.  The stored value `v` is therefore
never written anywhere. -/
def ExpiringClockCache.put (c : ExpiringClockCache) (k : Key) (_v : Val) :
    EPutOutcome :=
  match edictLookup c.data k with
  | some _ => { state := c, raised := true }
  | none =>
    match c.sweep k (c.size + 2) c.hand 0 with
    | some c' => { state := c', raised := true }
    | none => { state := c, raised := true }

/-- Embedding of `ExpiringClockCache.invalidate(key)` (identical to the
plain variant's). -/
def ExpiringClockCache.invalidate (c : ExpiringClockCache) (k : Key) :
    ExpiringClockCache :=
  match edictPop c.data k with
  | (none, _) => c
  | (some (pos, _), d') =>
    { c with data := d', clock_refs := c.clock_refs.set pos false }

/-! Import structure of `futile/cache/expiring_cache.py` (claim C10).
Python resolves `futile.cache` to the module `futile/cache.py` (the
directory `futile/cache/` has no `__init__.py`, and a regular module
takes precedence over a namespace-package directory of the same name).
A `from futile.cache import n1, n2, ...` statement succeeds only if
every requested name is bound at top level of that module; a missing
name raises `ImportError` while the importing module is loading, so no
statement after the import (in particular the `class ExpiringCache`
definition) ever executes. -/

/-- Top-level names bound by executing `futile/cache.py`: its two
imports and its five module-level definitions. -/
def futileCacheTopLevelNames : List String :=
  ["threading", "ABC", "abstractmethod", "Cache", "UnboundedCache",
   "_MARKER", "ClockCache", "ExpiringClockCache"]

/-- Names requested by the statement
`from futile.cache import Cache, _DEFAULT_TIMEOUT` at the top of
`futile/cache/expiring_cache.py`. -/
def expiringCacheRequestedNames : List String :=
  ["Cache", "_DEFAULT_TIMEOUT"]

/-- Whether loading `futile/cache/expiring_cache.py` gets past its
imports: every requested name must be bound in `futile.cache`. -/
def expiringCacheModuleLoads : Bool :=
  expiringCacheRequestedNames.all
    (fun n => futileCacheTopLevelNames.contains n)

/-- Well-formedness invariant of a `ClockCache` state: positive
capacity, slot arrays of length `size`, the hand in range, dict keys
unique, and every dict entry recording an in-range slot whose
`clock_keys` cell holds that entry's key.  The invariant holds at
construction and is preserved by every operation; it implies that
distinct resident keys occupy distinct slots, hence the capacity
bound. -/
def ClockCache.WF (c : ClockCache) : Prop :=
  1 ≤ c.size ∧
  c.clock_keys.length = c.size ∧
  c.clock_refs.length = c.size ∧
  c.hand < c.size ∧
  (c.data.map Prod.fst).Nodup ∧
  ∀ e ∈ c.data, e.2.1 < c.size ∧ c.clock_keys.getD e.2.1 none = some e.1

instance (c : ClockCache) : Decidable c.WF := by
  unfold ClockCache.WF; infer_instance

/-- Number of sweep-loop iterations a `put` of a non-resident key would
run from the current state (exposes the step count of
`ClockCache.sweep` exactly as `ClockCache.put` invokes it). -/
def ClockCache.putSteps (c : ClockCache) (k : Key) (v : Val) : Option Nat :=
  (c.sweep k v (c.size + 2) c.hand 0).map Prod.snd

/-- Run a sequence of `put` calls, threading the object state (a call
that raises leaves the state unchanged, as `ClockCache.put` records). -/
def ClockCache.runPuts (c : ClockCache) : List (Key × Val) → ClockCache
  | [] => c
  | (k, v) :: rest => ClockCache.runPuts (c.put k v).state rest

/-- Run a sequence of `get` calls (default `None`), threading the
object state. -/
def ClockCache.runGets (c : ClockCache) : List Key → ClockCache
  | [] => c
  | k :: rest => ClockCache.runGets (c.get k none).2 rest

/-- Number of keys in a query sequence that are resident (a `get` would
hit) in state `c`; since `get` never modifies `data`, this counts the
hits of the whole sequence. -/
def ClockCache.hitCount (c : ClockCache) (ks : List Key) : Nat :=
  (ks.filter (fun k => (dictLookup c.data k).isSome)).length

/-- Number of keys in a query sequence that are absent (a `get` would
miss) in state `c`. -/
def ClockCache.missCount (c : ClockCache) (ks : List Key) : Nat :=
  (ks.filter (fun k => !(dictLookup c.data k).isSome)).length

/-- One call of the public mutating/reading interface of `ClockCache`. -/
inductive CacheOp where
  | putOp (k : Key) (v : Val)
  | getOp (k : Key) (d : Option Val)
  | invalidateOp (k : Key)
  | clearOp
  deriving DecidableEq

/-- Effect of one interface call on the object state (a `put` that
raises leaves the state unchanged, as `ClockCache.put` records). -/
def ClockCache.applyOp (c : ClockCache) : CacheOp → ClockCache
  | .putOp k v => (c.put k v).state
  | .getOp k d => (c.get k d).2
  | .invalidateOp k => c.invalidate k
  | .clearOp => c.clear

/-- Run a sequence of interface calls, threading the object state. -/
def ClockCache.runOps (c : ClockCache) : List CacheOp → ClockCache
  | [] => c
  | op :: rest => ClockCache.runOps (c.applyOp op) rest

end Futile

/-! Helper lemmas about the dict embedding and `List.set`/`List.getD`. -/

namespace Futile

theorem getD_set_self {α : Type} (l : List α) (i : Nat) (a d : α)
    (h : i < l.length) : (l.set i a).getD i d = a := by
  simp [List.getD, List.getElem?_set, h]

theorem getD_set_ne {α : Type} (l : List α) (i j : Nat) (a d : α)
    (h : i ≠ j) : (l.set i a).getD j d = l.getD j d := by
  simp [List.getD, List.getElem?_set, h]

theorem dictPop_fst (d : List Entry) (k : Key) :
    (dictPop d k).1 = dictLookup d k := by
  induction d with
  | nil => rfl
  | cons e rest ih =>
    obtain ⟨k', pv⟩ := e
    by_cases h : k' = k <;> simp [dictPop, dictLookup, h, ih]

theorem dictPop_snd_sublist (d : List Entry) (k : Key) :
    List.Sublist (dictPop d k).2 d := by
  induction d with
  | nil => simp [dictPop]
  | cons e rest ih =>
    obtain ⟨k', pv⟩ := e
    by_cases h : k' = k
    · have h2 : (dictPop ((k', pv) :: rest) k).2 = rest := by simp [dictPop, h]
      rw [h2]
      exact List.sublist_cons_self _ _
    · have h2 : (dictPop ((k', pv) :: rest) k).2 = (k', pv) :: (dictPop rest k).2 := by
        simp [dictPop, h]
      rw [h2]
      exact List.Sublist.cons₂ _ ih

theorem mem_dictPop_snd {d : List Entry} {k : Key} {e : Entry}
    (h : e ∈ (dictPop d k).2) : e ∈ d :=
  List.Sublist.mem h (dictPop_snd_sublist d k)

theorem dictPop_snd_keys_nodup {d : List Entry} {k : Key}
    (h : (d.map Prod.fst).Nodup) : ((dictPop d k).2.map Prod.fst).Nodup :=
  List.Nodup.sublist (List.Sublist.map _ (dictPop_snd_sublist d k)) h

theorem mem_dictPop_snd_key_ne {d : List Entry} {k : Key} {e : Entry}
    (hnd : (d.map Prod.fst).Nodup) (h : e ∈ (dictPop d k).2) : e.1 ≠ k := by
  induction d with
  | nil => simp [dictPop] at h
  | cons a rest ih =>
    obtain ⟨k', pv⟩ := a
    simp only [List.map_cons, List.nodup_cons] at hnd
    by_cases hk : k' = k
    · subst hk
      simp only [dictPop, if_pos rfl] at h
      intro hek
      exact hnd.1 (hek ▸ List.mem_map_of_mem Prod.fst h)
    · simp only [dictPop, if_neg hk] at h
      rcases List.mem_cons.mp h with h1 | h2
      · subst h1; exact hk
      · exact ih hnd.2 h2

theorem dictLookup_eq_none {d : List Entry} {k : Key} :
    dictLookup d k = none ↔ k ∉ d.map Prod.fst := by
  induction d with
  | nil => simp [dictLookup]
  | cons a rest ih =>
    obtain ⟨k', pv⟩ := a
    by_cases h : k' = k
    · subst h; simp [dictLookup]
    · simp only [dictLookup, if_neg h, List.map_cons, List.mem_cons, not_or]
      rw [ih]
      exact ⟨fun hk => ⟨fun hh => h hh.symm, hk⟩, fun hk => hk.2⟩

theorem dictLookup_mem {d : List Entry} {k : Key} {pv : Nat × Val}
    (h : dictLookup d k = some pv) : (k, pv) ∈ d := by
  induction d with
  | nil => simp [dictLookup] at h
  | cons a rest ih =>
    obtain ⟨k', pv'⟩ := a
    by_cases hk : k' = k
    · subst hk
      simp [dictLookup] at h
      subst h
      exact List.mem_cons_self _ _
    · simp only [dictLookup, if_neg hk] at h
      exact List.mem_cons_of_mem _ (ih h)

theorem mem_dictLookup {d : List Entry} {e : Entry}
    (hnd : (d.map Prod.fst).Nodup) (h : e ∈ d) :
    dictLookup d e.1 = some e.2 := by
  induction d with
  | nil => simp at h
  | cons a rest ih =>
    obtain ⟨k', pv'⟩ := a
    simp only [List.map_cons, List.nodup_cons] at hnd
    rcases List.mem_cons.mp h with h1 | h2
    · subst h1; simp [dictLookup]
    · have hne : k' ≠ e.1 := by
        intro hh
        exact hnd.1 (hh ▸ List.mem_map_of_mem Prod.fst h2)
      simp [dictLookup, hne, ih hnd.2 h2]

theorem dictInsert_of_lookup_none {d : List Entry} {k : Key} (pv : Nat × Val)
    (h : dictLookup d k = none) : dictInsert d k pv = d ++ [(k, pv)] := by
  induction d with
  | nil => rfl
  | cons a rest ih =>
    obtain ⟨k', pv'⟩ := a
    by_cases hk : k' = k
    · subst hk; simp [dictLookup] at h
    · simp only [dictLookup, if_neg hk] at h
      simp [dictInsert, hk, ih h]

end Futile

/-! Preservation of the well-formedness invariant. -/

namespace Futile

theorem ClockCache.clearStep_size (c : ClockCache) (hand count1 : Nat) :
    (c.clearStep hand count1).size = c.size := by
  unfold ClockCache.clearStep; split <;> rfl

theorem ClockCache.clearStep_data (c : ClockCache) (hand count1 : Nat) :
    (c.clearStep hand count1).data = c.data := by
  unfold ClockCache.clearStep; split <;> rfl

theorem ClockCache.clearStep_keys (c : ClockCache) (hand count1 : Nat) :
    (c.clearStep hand count1).clock_keys = c.clock_keys := by
  unfold ClockCache.clearStep; split <;> rfl

theorem ClockCache.clearStep_hand (c : ClockCache) (hand count1 : Nat) :
    (c.clearStep hand count1).hand = c.hand := by
  unfold ClockCache.clearStep; split <;> rfl

theorem ClockCache.clearStep_refs_length (c : ClockCache) (hand count1 : Nat) :
    (c.clearStep hand count1).clock_refs.length = c.clock_refs.length := by
  unfold ClockCache.clearStep; split <;> simp [List.length_set]

theorem ClockCache.clearStep_forced {c : ClockCache} (hand count1 : Nat)
    (hrl : c.clock_refs.length = c.size) (hsz : 1 ≤ c.size)
    (h : c.size ≤ 2 * count1) :
    (c.clearStep hand count1).clock_refs.getD ((hand + 1) % c.size) false =
      false := by
  unfold ClockCache.clearStep
  rw [if_pos h]
  exact getD_set_self _ _ _ _
    (by simp [List.length_set, hrl]; exact Nat.mod_lt _ hsz)

theorem ClockCache.clearStep_WF {c : ClockCache} (hwf : c.WF)
    (hand count1 : Nat) : (c.clearStep hand count1).WF := by
  obtain ⟨h1, h2, h3, h4, h5, h6⟩ := hwf
  unfold ClockCache.WF
  rw [ClockCache.clearStep_size, ClockCache.clearStep_data,
    ClockCache.clearStep_keys, ClockCache.clearStep_hand,
    ClockCache.clearStep_refs_length]
  exact ⟨h1, h2, h3, h4, h5, h6⟩

theorem ClockCache.install_WF {c : ClockCache} {k : Key} {v : Val} {hand : Nat}
    (hwf : c.WF) (hhand : hand < c.size)
    (hk : dictLookup c.data k = none) : (c.install k v hand).WF := by
  obtain ⟨h1, h2, h3, h4, h5, h6⟩ := hwf
  have hsub : List.Sublist (dictPopOpt c.data (c.clock_keys.getD hand none)).2
      c.data := by
    unfold dictPopOpt
    cases c.clock_keys.getD hand none with
    | none => exact List.Sublist.refl _
    | some k0 => exact dictPop_snd_sublist _ _
  have hmem : ∀ e ∈ (dictPopOpt c.data (c.clock_keys.getD hand none)).2,
      e ∈ c.data := fun e he => List.Sublist.mem he hsub
  have hnd' : (((dictPopOpt c.data (c.clock_keys.getD hand none)).2).map
      Prod.fst).Nodup :=
    List.Nodup.sublist (List.Sublist.map _ hsub) h5
  have hknot : dictLookup
      (dictPopOpt c.data (c.clock_keys.getD hand none)).2 k = none := by
    rw [dictLookup_eq_none] at hk ⊢
    intro hm
    rcases List.mem_map.mp hm with ⟨e, he, hek⟩
    exact hk (hek ▸ List.mem_map_of_mem Prod.fst (hmem e he))
  have hins : dictInsert (dictPopOpt c.data (c.clock_keys.getD hand none)).2 k
      (hand, v) =
      (dictPopOpt c.data (c.clock_keys.getD hand none)).2 ++ [(k, (hand, v))] :=
    dictInsert_of_lookup_none _ hknot
  have hposne : ∀ e ∈ (dictPopOpt c.data (c.clock_keys.getD hand none)).2,
      e.2.1 ≠ hand := by
    intro e he heq
    have hine := hmem e he
    have hslot := (h6 e hine).2
    rw [heq] at hslot
    have hold : c.clock_keys.getD hand none = some e.1 := hslot
    rw [hold] at he
    exact mem_dictPop_snd_key_ne h5 he rfl
  have hdata : (c.install k v hand).data =
      dictInsert (dictPopOpt c.data (c.clock_keys.getD hand none)).2 k
        (hand, v) := rfl
  have hkeys : (c.install k v hand).clock_keys =
      c.clock_keys.set hand (some k) := rfl
  have hrefs : (c.install k v hand).clock_refs =
      c.clock_refs.set hand true := rfl
  have hsize : (c.install k v hand).size = c.size := rfl
  have hhand2 : (c.install k v hand).hand = (hand + 1) % c.size := rfl
  unfold ClockCache.WF
  rw [hdata, hkeys, hrefs, hsize, hhand2, hins]
  refine ⟨h1, ?_, ?_, ?_, ?_, ?_⟩
  · rw [List.length_set]; exact h2
  · rw [List.length_set]; exact h3
  · exact Nat.mod_lt _ h1
  · rw [List.map_append]
    refine List.Nodup.append hnd' (List.nodup_singleton k) ?_
    intro a ha hb
    rcases List.mem_singleton.mp hb with rfl
    rw [dictLookup_eq_none] at hknot
    exact hknot ha
  · intro e he
    rcases List.mem_append.mp he with hl | hr
    · have hine := hmem e hl
      have hne := hposne e hl
      refine ⟨(h6 e hine).1, ?_⟩
      rw [getD_set_ne _ _ _ _ _ (fun hh => hne hh.symm)]
      exact (h6 e hine).2
    · rcases List.mem_singleton.mp hr with rfl
      exact ⟨hhand, getD_set_self _ _ _ _ (h2 ▸ hhand)⟩

theorem ClockCache.sweep_WF : ∀ (fuel : Nat) {c : ClockCache} {k : Key}
    {v : Val} {hand count : Nat} {c' : ClockCache} {n : Nat},
    c.WF → hand < c.size → dictLookup c.data k = none →
    c.sweep k v fuel hand count = some (c', n) → c'.WF := by
  intro fuel
  induction fuel with
  | zero =>
    intro c k v hand count c' n _ _ _ h
    simp [ClockCache.sweep] at h
  | succ f ih =>
    intro c k v hand count c' n hwf hhand hk h
    rw [ClockCache.sweep] at h
    by_cases hr : c.clock_refs.getD hand false = true
    · rw [if_pos hr] at h
      cases hrec : (c.clearStep hand (count + 1)).sweep k v f
          ((hand + 1) % c.size) (count + 1) with
      | none => rw [hrec] at h; cases h
      | some p =>
        obtain ⟨cFin, m⟩ := p
        rw [hrec] at h
        simp only [Option.some.injEq, Prod.mk.injEq] at h
        obtain ⟨hc, hn⟩ := h
        subst hc
        refine ih (ClockCache.clearStep_WF hwf _ _) ?_ ?_ hrec
        · rw [ClockCache.clearStep_size]
          exact Nat.mod_lt _ hwf.1
        · rw [ClockCache.clearStep_data]; exact hk
    · rw [if_neg hr] at h
      simp only [Option.some.injEq, Prod.mk.injEq] at h
      obtain ⟨hc, hn⟩ := h
      subst hc
      exact ClockCache.install_WF hwf hhand hk

end Futile

namespace Futile

theorem ClockCache.install_size (c : ClockCache) (k : Key) (v : Val)
    (hand : Nat) : (c.install k v hand).size = c.size := rfl

theorem ClockCache.sweep_size : ∀ (fuel : Nat) {c : ClockCache} {k : Key}
    {v : Val} {hand count : Nat} {c' : ClockCache} {n : Nat},
    c.sweep k v fuel hand count = some (c', n) → c'.size = c.size := by
  intro fuel
  induction fuel with
  | zero =>
    intro c k v hand count c' n h
    simp [ClockCache.sweep] at h
  | succ f ih =>
    intro c k v hand count c' n h
    rw [ClockCache.sweep] at h
    by_cases hr : c.clock_refs.getD hand false = true
    · rw [if_pos hr] at h
      cases hrec : (c.clearStep hand (count + 1)).sweep k v f
          ((hand + 1) % c.size) (count + 1) with
      | none => rw [hrec] at h; cases h
      | some p =>
        obtain ⟨cFin, m⟩ := p
        rw [hrec] at h
        simp only [Option.some.injEq, Prod.mk.injEq] at h
        obtain ⟨hc, hn⟩ := h
        subst hc
        rw [ih hrec, ClockCache.clearStep_size]
    · rw [if_neg hr] at h
      simp only [Option.some.injEq, Prod.mk.injEq] at h
      obtain ⟨hc, hn⟩ := h
      subst hc
      rfl

theorem ClockCache.sweep_install_of_ref_false {c : ClockCache} {k : Key}
    {v : Val} {hand : Nat} (fuel count : Nat)
    (h : c.clock_refs.getD hand false = false) :
    c.sweep k v (fuel + 1) hand count = some (c.install k v hand, 1) := by
  rw [ClockCache.sweep, if_neg (by rw [h]; exact Bool.false_ne_true)]

theorem ClockCache.sweep_total : ∀ (fuel : Nat) (c : ClockCache) (k : Key)
    (v : Val) (hand count : Nat),
    c.clock_refs.length = c.size → hand < c.size → 2 * count < c.size →
    c.size + 2 ≤ 2 * count + 2 * fuel →
    ∃ c' n, c.sweep k v fuel hand count = some (c', n) ∧
      n + count ≤ (c.size + 1) / 2 + 1 := by
  intro fuel
  induction fuel with
  | zero =>
    intro c k v hand count _ _ hlt hfuel
    omega
  | succ f ih =>
    intro c k v hand count hrl hhand hlt hfuel
    by_cases hr : c.clock_refs.getD hand false = true
    · have hsz : 1 ≤ c.size := by omega
      by_cases h2 : c.size ≤ 2 * (count + 1)
      · -- the forced clear fires: the next iteration must install
        have hforced := ClockCache.clearStep_forced hand (count + 1)
          hrl hsz h2
        obtain ⟨f', rfl⟩ : ∃ f', f = f' + 1 := ⟨f - 1, by omega⟩
        have hstep := ClockCache.sweep_install_of_ref_false
          (c := c.clearStep hand (count + 1)) (k := k) (v := v)
          f' (count + 1) hforced
        rw [ClockCache.sweep, if_pos hr, hstep]
        exact ⟨_, 2, rfl, by omega⟩
      · -- still in the first phase: recurse
        have h2' : 2 * (count + 1) < c.size := by omega
        obtain ⟨c', n', heq, hb⟩ := ih (c.clearStep hand (count + 1)) k v
          ((hand + 1) % c.size) (count + 1)
          (by rw [ClockCache.clearStep_refs_length,
                ClockCache.clearStep_size]; exact hrl)
          (by rw [ClockCache.clearStep_size]; exact Nat.mod_lt _ hsz)
          (by rw [ClockCache.clearStep_size]; exact h2')
          (by rw [ClockCache.clearStep_size]; omega)
        refine ⟨c', n' + 1, ?_, ?_⟩
        · rw [ClockCache.sweep, if_pos hr, heq]
        · rw [ClockCache.clearStep_size] at hb
          omega
    · have hrf : c.clock_refs.getD hand false = false := by
        cases hb : c.clock_refs.getD hand false
        · rfl
        · exact absurd hb hr
      refine ⟨c.install k v hand, 1,
        ClockCache.sweep_install_of_ref_false f count hrf, ?_⟩
      omega

end Futile

namespace Futile

theorem ClockCache.WF_init {n : Nat} (h : 1 ≤ n) : (ClockCache.init n).WF := by
  refine ⟨h, ?_, ?_, h, ?_, ?_⟩
  · simp [ClockCache.init, ClockCache.clear]
  · simp [ClockCache.init, ClockCache.clear]
  · simp [ClockCache.init, ClockCache.clear]
  · intro e he
    simp [ClockCache.init, ClockCache.clear] at he

theorem ClockCache.WF_clear {c : ClockCache} (hwf : c.WF) : c.clear.WF := by
  refine ⟨hwf.1, ?_, ?_, hwf.1, ?_, ?_⟩
  · simp [ClockCache.clear]
  · simp [ClockCache.clear]
  · simp [ClockCache.clear]
  · intro e he
    simp [ClockCache.clear] at he

theorem ClockCache.get_state (c : ClockCache) (k : Key) (d : Option Val) :
    ((c.get k d).2).size = c.size ∧ ((c.get k d).2).data = c.data ∧
      ((c.get k d).2).clock_keys = c.clock_keys ∧
      ((c.get k d).2).hand = c.hand ∧
      ((c.get k d).2).clock_refs.length = c.clock_refs.length := by
  cases hl : dictLookup c.data k with
  | none => simp [ClockCache.get, hl]
  | some pv =>
    obtain ⟨pos, v⟩ := pv
    simp [ClockCache.get, hl, List.length_set]

theorem ClockCache.WF_get {c : ClockCache} (hwf : c.WF) (k : Key)
    (d : Option Val) : ((c.get k d).2).WF := by
  obtain ⟨h1, h2, h3, h4, h5, h6⟩ := hwf
  obtain ⟨g1, g2, g3, g4, g5⟩ := ClockCache.get_state c k d
  exact ⟨g1 ▸ h1, by rw [g3, g1]; exact h2, by rw [g5, g1]; exact h3,
    by rw [g4, g1]; exact h4, by rw [g2]; exact h5,
    by rw [g2, g1, g3]; exact h6⟩

theorem ClockCache.invalidate_state (c : ClockCache) (k : Key) :
    (c.invalidate k).size = c.size ∧
      (c.invalidate k).clock_keys = c.clock_keys ∧
      (c.invalidate k).hand = c.hand ∧
      (c.invalidate k).clock_refs.length = c.clock_refs.length ∧
      (c.invalidate k).evictions = c.evictions ∧
      (c.invalidate k).hits = c.hits ∧
      (c.invalidate k).misses = c.misses ∧
      (c.invalidate k).lookups = c.lookups := by
  unfold ClockCache.invalidate
  cases hp : dictPop c.data k with
  | mk fst snd =>
    cases fst with
    | none => exact ⟨rfl, rfl, rfl, rfl, rfl, rfl, rfl, rfl⟩
    | some pv =>
      obtain ⟨pos, v⟩ := pv
      exact ⟨rfl, rfl, rfl, List.length_set .., rfl, rfl, rfl, rfl⟩

theorem ClockCache.invalidate_data (c : ClockCache) (k : Key) :
    (c.invalidate k).data = c.data ∨
      (c.invalidate k).data = (dictPop c.data k).2 := by
  unfold ClockCache.invalidate
  cases hp : dictPop c.data k with
  | mk fst snd =>
    cases fst with
    | none => exact Or.inl rfl
    | some pv =>
      obtain ⟨pos, v⟩ := pv
      right
      rfl

theorem ClockCache.WF_invalidate {c : ClockCache} (hwf : c.WF) (k : Key) :
    (c.invalidate k).WF := by
  obtain ⟨h1, h2, h3, h4, h5, h6⟩ := hwf
  obtain ⟨g1, g2, g3, g4, _, _, _, _⟩ := ClockCache.invalidate_state c k
  have hdata : ∀ e ∈ (c.invalidate k).data, e ∈ c.data := by
    rcases ClockCache.invalidate_data c k with h | h <;> rw [h]
    · exact fun e he => he
    · exact fun e he => mem_dictPop_snd he
  have hnd : ((c.invalidate k).data.map Prod.fst).Nodup := by
    rcases ClockCache.invalidate_data c k with h | h <;> rw [h]
    · exact h5
    · exact dictPop_snd_keys_nodup h5
  exact ⟨g1 ▸ h1, by rw [g2, g1]; exact h2, by rw [g4, g1]; exact h3,
    by rw [g3, g1]; exact h4, hnd,
    fun e he => by rw [g1, g2]; exact h6 e (hdata e he)⟩

theorem ClockCache.WF_put {c : ClockCache} (hwf : c.WF) (k : Key) (v : Val) :
    ((c.put k v).state).WF := by
  unfold ClockCache.put
  cases hl : dictLookup c.data k with
  | some pv => exact hwf
  | none =>
    cases hs : c.sweep k v (c.size + 2) c.hand 0 with
    | none => exact hwf
    | some p =>
      obtain ⟨c', n⟩ := p
      exact ClockCache.sweep_WF _ hwf hwf.2.2.2.1 hl hs

theorem ClockCache.put_size (c : ClockCache) (k : Key) (v : Val) :
    ((c.put k v).state).size = c.size := by
  unfold ClockCache.put
  cases hl : dictLookup c.data k with
  | some pv => rfl
  | none =>
    cases hs : c.sweep k v (c.size + 2) c.hand 0 with
    | none => rfl
    | some p =>
      obtain ⟨c', n⟩ := p
      exact ClockCache.sweep_size _ hs

theorem ClockCache.WF_data_length_le {c : ClockCache} (hwf : c.WF) :
    c.data.length ≤ c.size := by
  obtain ⟨h1, h2, h3, h4, h5, h6⟩ := hwf
  have hinj : ∀ x ∈ c.data, ∀ y ∈ c.data, x.2.1 = y.2.1 → x = y := by
    intro x hx y hy hxy
    have hkx := (h6 x hx).2
    have hky := (h6 y hy).2
    rw [hxy, hky] at hkx
    have hkeq : y.1 = x.1 := Option.some.inj hkx
    exact (List.inj_on_of_nodup_map h5 hy hx hkeq).symm
  have hndpos : (c.data.map (fun e => e.2.1)).Nodup :=
    List.Nodup.map_on hinj (List.Nodup.of_map _ h5)
  have hlt : ∀ p ∈ c.data.map (fun e => e.2.1), p < c.size := by
    intro p hp
    rcases List.mem_map.mp hp with ⟨e, he, rfl⟩
    exact (h6 e he).1
  have hsub : (c.data.map (fun e => e.2.1)).toFinset ⊆ Finset.range c.size := by
    intro x hx
    simp only [List.mem_toFinset] at hx
    exact Finset.mem_range.mpr (hlt x hx)
  have hcard := Finset.card_le_card hsub
  rw [List.toFinset_card_of_nodup hndpos, Finset.card_range,
    List.length_map] at hcard
  exact hcard

theorem ClockCache.runPuts_WF : ∀ (ops : List (Key × Val)) {c : ClockCache},
    c.WF → (c.runPuts ops).WF := by
  intro ops
  induction ops with
  | nil => intro c hwf; exact hwf
  | cons p rest ih =>
    intro c hwf
    obtain ⟨k, v⟩ := p
    exact ih (ClockCache.WF_put hwf k v)

theorem ClockCache.runPuts_size : ∀ (ops : List (Key × Val)) (c : ClockCache),
    (c.runPuts ops).size = c.size := by
  intro ops
  induction ops with
  | nil => intro c; rfl
  | cons p rest ih =>
    intro c
    obtain ⟨k, v⟩ := p
    rw [ClockCache.runPuts, ih, ClockCache.put_size]

theorem ClockCache.applyOp_WF {c : ClockCache} (hwf : c.WF) (op : CacheOp) :
    (c.applyOp op).WF := by
  cases op with
  | putOp k v => exact ClockCache.WF_put hwf k v
  | getOp k d => exact ClockCache.WF_get hwf k d
  | invalidateOp k => exact ClockCache.WF_invalidate hwf k
  | clearOp => exact ClockCache.WF_clear hwf

theorem ClockCache.applyOp_size (c : ClockCache) (op : CacheOp) :
    (c.applyOp op).size = c.size := by
  cases op with
  | putOp k v => exact ClockCache.put_size c k v
  | getOp k d => exact (ClockCache.get_state c k d).1
  | invalidateOp k => exact (ClockCache.invalidate_state c k).1
  | clearOp => rfl

theorem ClockCache.runOps_WF : ∀ (ops : List CacheOp) {c : ClockCache},
    c.WF → (c.runOps ops).WF := by
  intro ops
  induction ops with
  | nil => intro c hwf; exact hwf
  | cons op rest ih =>
    intro c hwf
    exact ih (ClockCache.applyOp_WF hwf op)

theorem ClockCache.runOps_size : ∀ (ops : List CacheOp) (c : ClockCache),
    (c.runOps ops).size = c.size := by
  intro ops
  induction ops with
  | nil => intro c; rfl
  | cons op rest ih =>
    intro c
    rw [ClockCache.runOps, ih, ClockCache.applyOp_size]

end Futile

namespace Futile

theorem ClockCache.invalidate_lookup_none {c : ClockCache}
    (hnd : (c.data.map Prod.fst).Nodup) (k : Key) :
    dictLookup (c.invalidate k).data k = none := by
  unfold ClockCache.invalidate
  cases hp : dictPop c.data k with
  | mk fst snd =>
    cases fst with
    | none =>
      have h := dictPop_fst c.data k
      rw [hp] at h
      exact h.symm
    | some pv =>
      obtain ⟨pos, v⟩ := pv
      rw [dictLookup_eq_none]
      intro hm
      rcases List.mem_map.mp hm with ⟨e, he, hek⟩
      have he' : e ∈ (dictPop c.data k).2 := by rw [hp]; exact he
      exact mem_dictPop_snd_key_ne hnd he' hek

theorem ClockCache.invalidate_of_lookup_none {c : ClockCache} {k : Key}
    (h : dictLookup c.data k = none) : c.invalidate k = c := by
  unfold ClockCache.invalidate
  have hf := dictPop_fst c.data k
  rw [h] at hf
  cases hp : dictPop c.data k with
  | mk fst snd =>
    rw [hp] at hf
    cases fst with
    | none => rfl
    | some pv => cases hf

theorem ClockCache.invalidate_clears_ref {c : ClockCache} {k : Key}
    {pos : Nat} {v : Val} (hlen : pos < c.clock_refs.length)
    (h : dictLookup c.data k = some (pos, v)) :
    (c.invalidate k).clock_refs.getD pos false = false := by
  unfold ClockCache.invalidate
  have hf := dictPop_fst c.data k
  rw [h] at hf
  cases hp : dictPop c.data k with
  | mk fst snd =>
    rw [hp] at hf
    cases fst with
    | none => cases hf
    | some pv' =>
      obtain ⟨pos', v'⟩ := pv'
      have : pos' = pos ∧ v' = v := by
        have := Option.some.inj hf
        exact ⟨congrArg Prod.fst this, congrArg Prod.snd this⟩
      obtain ⟨rfl, rfl⟩ := this
      exact getD_set_self _ _ _ _ hlen

theorem ClockCache.get_of_lookup_none {c : ClockCache} {k : Key}
    (d : Option Val) (h : dictLookup c.data k = none) : (c.get k d).1 = d := by
  simp [ClockCache.get, h]

theorem ClockCache.get_of_lookup_some {c : ClockCache} {k : Key} {pos : Nat}
    {v : Val} (d : Option Val) (h : dictLookup c.data k = some (pos, v)) :
    (c.get k d).1 = some v := by
  simp [ClockCache.get, h]

theorem ClockCache.get_miss_counters {c : ClockCache} {k : Key}
    (d : Option Val) (h : dictLookup c.data k = none) :
    ((c.get k d).2).hits = c.hits ∧ ((c.get k d).2).misses = c.misses + 1 ∧
      ((c.get k d).2).lookups = c.lookups + 1 := by
  simp [ClockCache.get, h]

theorem ClockCache.get_hit_counters {c : ClockCache} {k : Key} {pv : Nat × Val}
    (d : Option Val) (h : dictLookup c.data k = some pv) :
    ((c.get k d).2).hits = c.hits + 1 ∧ ((c.get k d).2).misses = c.misses ∧
      ((c.get k d).2).lookups = c.lookups + 1 := by
  obtain ⟨pos, v⟩ := pv
  simp [ClockCache.get, h]

theorem ClockCache.hitCount_congr {c c' : ClockCache} (h : c'.data = c.data)
    (ks : List Key) : c'.hitCount ks = c.hitCount ks := by
  unfold ClockCache.hitCount
  rw [h]

theorem ClockCache.missCount_congr {c c' : ClockCache} (h : c'.data = c.data)
    (ks : List Key) : c'.missCount ks = c.missCount ks := by
  unfold ClockCache.missCount
  rw [h]

theorem ClockCache.hitCount_cons (c : ClockCache) (k : Key) (ks : List Key) :
    c.hitCount (k :: ks) =
      (if (dictLookup c.data k).isSome then 1 else 0) + c.hitCount ks := by
  unfold ClockCache.hitCount
  rw [List.filter_cons]
  by_cases h : (dictLookup c.data k).isSome <;> simp [h] <;> omega

theorem ClockCache.missCount_cons (c : ClockCache) (k : Key) (ks : List Key) :
    c.missCount (k :: ks) =
      (if (dictLookup c.data k).isSome then 0 else 1) + c.missCount ks := by
  unfold ClockCache.missCount
  rw [List.filter_cons]
  by_cases h : (dictLookup c.data k).isSome <;> simp [h] <;> omega

end Futile

/-! Claim theorems. -/

namespace Futile

/-- C1: the claim says that immediately after `put(k, v)` returns,
`get(k)` returns `v`, including when `k` was already resident, in which
case `put` is claimed to update the value in place and return.  The
code instead raises `NameError` on the already-resident branch (it
reads the unbound names `data` and `pos`), leaves the state unchanged,
and a subsequent `get` still returns the OLD value: evaluated on a
capacity-2 cache after `put(0, 1)`, a second `put(0, 2)` raises and
`get(0)` stays `1`. -/
theorem clockcache_put_update_raises :
    ((((ClockCache.init 2).put 0 1).state.put 0 2).raised = true) ∧
    ((((ClockCache.init 2).put 0 1).state.put 0 2).state =
      ((ClockCache.init 2).put 0 1).state) ∧
    (((((ClockCache.init 2).put 0 1).state.put 0 2).state.get 0 none).1 =
      some 1) := by decide

/-- C2: the claim says no operation raises after successful
construction.  In the code every execution path of
`ExpiringClockCache.put` raises `NameError`: the already-resident
branch evaluates the unbound `pos`, and the installation arm of the
sweep evaluates `time.time()` with `time` never imported by
`futile/cache.py`. -/
theorem expiring_put_always_raises (c : ExpiringClockCache) (k : Key)
    (v : Val) : (c.put k v).raised = true := by
  unfold ExpiringClockCache.put
  cases hl : edictLookup c.data k with
  | some pv => rfl
  | none =>
    cases hs : c.sweep k (c.size + 2) c.hand 0 with
    | none => rfl
    | some c' => rfl

/-- C3: for every `ClockCache` constructed with capacity `cap >= 1` and
every sequence of `put` calls (any number of distinct keys), after each
call the number of simultaneously resident keys — entries of the
`data` index, exactly the keys on which `get` would hit — never
exceeds `cap`. -/
theorem clockcache_capacity_bound (cap : Nat) (hcap : 1 ≤ cap)
    (ops : List (Key × Val)) :
    ((ClockCache.init cap).runPuts ops).data.length ≤ cap := by
  have hwf := ClockCache.runPuts_WF ops (ClockCache.WF_init hcap)
  have hle := ClockCache.WF_data_length_le hwf
  rwa [ClockCache.runPuts_size] at hle

/-- Witness for C3 at capacity 2 with three distinct keys. -/
theorem clockcache_capacity_bound_witness :
    1 ≤ 2 ∧
      ((ClockCache.init 2).runPuts [(0, 1), (1, 2), (2, 3)]).data.length ≤ 2 :=
  ⟨by decide, clockcache_capacity_bound 2 (by decide) [(0, 1), (1, 2), (2, 3)]⟩

/-- C4: on a fresh capacity-2 cache, after `put(a,1)`, `put(b,2)`,
`get(a)`, the call `put(c,3)` evicts exactly `b`: afterwards `get(a)`
returns `1`, `get(c)` returns `3`, `get(b, default)` returns the
default, and the `evictions` counter equals 1 (keys `a`, `b`, `c`
embedded as `0`, `1`, `2`). -/
theorem clockcache_eviction_prefers_unreferenced :
    (((((((ClockCache.init 2).put 0 1).state.put 1 2).state.get 0
      none).2.put 2 3).state.get 0 none).1 = some 1) ∧
    (((((((ClockCache.init 2).put 0 1).state.put 1 2).state.get 0
      none).2.put 2 3).state.get 2 none).1 = some 3) ∧
    (((((((ClockCache.init 2).put 0 1).state.put 1 2).state.get 0
      none).2.put 2 3).state.get 1 (some 99)).1 = some 99) ∧
    ((((((ClockCache.init 2).put 0 1).state.put 1 2).state.get 0
      none).2.put 2 3).state.evictions = 1) := by decide

/-- C5 counterexample: the claim bounds the sweep by at most `capacity`
steps, but on a capacity-1 cache whose single reference bit is set (the
state after one `put`), a `put` of a new key examines slots twice:
`putSteps` evaluates to 2 while the capacity is 1. -/
theorem clockcache_scan_steps_exceed_capacity :
    ((ClockCache.init 1).put 0 10).state.putSteps 1 20 = some 2 ∧
      ((ClockCache.init 1).put 0 10).state.size = 1 := by decide

/-- C5 (amended): for every well-formed `ClockCache` state and every
non-resident key, the sweep of `put` terminates (the fuel-free `while
True` loop always exits, so `put` does not raise), completing within at
most `(capacity + 1) / 2 + 1` iterations — hence within `capacity`
iterations when `capacity >= 2`, though 2 (> capacity) iterations are
possible at capacity 1. -/
theorem clockcache_scan_bounded (c : ClockCache) (k : Key) (v : Val)
    (hwf : c.WF) (hk : dictLookup c.data k = none) :
    ∃ c' n, c.sweep k v (c.size + 2) c.hand 0 = some (c', n) ∧
      n ≤ (c.size + 1) / 2 + 1 ∧ (2 ≤ c.size → n ≤ c.size) ∧
      (c.put k v).raised = false := by
  obtain ⟨hsz, hkl, hrl, hh, hnd, hslots⟩ := hwf
  obtain ⟨c', n, heq, hb⟩ := ClockCache.sweep_total (c.size + 2) c k v c.hand 0
    hrl hh (by omega) (by omega)
  exact ⟨c', n, heq, by omega, fun h2 => by omega,
    by simp [ClockCache.put, hk, heq]⟩

/-- Witness for C5 (amended) on a full capacity-2 cache. -/
theorem clockcache_scan_bounded_witness :
    ((ClockCache.init 2).runPuts [(0, 1), (1, 2)]).WF ∧
    dictLookup ((ClockCache.init 2).runPuts [(0, 1), (1, 2)]).data 2 = none ∧
    (∃ c' n, ((ClockCache.init 2).runPuts [(0, 1), (1, 2)]).sweep 2 3
        (((ClockCache.init 2).runPuts [(0, 1), (1, 2)]).size + 2)
        ((ClockCache.init 2).runPuts [(0, 1), (1, 2)]).hand 0 = some (c', n) ∧
      n ≤ (((ClockCache.init 2).runPuts [(0, 1), (1, 2)]).size + 1) / 2 + 1 ∧
      (2 ≤ ((ClockCache.init 2).runPuts [(0, 1), (1, 2)]).size →
        n ≤ ((ClockCache.init 2).runPuts [(0, 1), (1, 2)]).size) ∧
      (((ClockCache.init 2).runPuts [(0, 1), (1, 2)]).put 2 3).raised =
        false) :=
  ⟨by decide, by decide,
    clockcache_scan_bounded _ 2 3 (by decide) (by decide)⟩

/-- C6 counterexample: the claim says at most one slot of `clock_keys`
is ever associated with a given key.  But `invalidate` leaves the stale
key in its slot; after `put(0, 1)`, `invalidate(0)`, `put(0, 2)` on a
capacity-2 cache, BOTH slots of `clock_keys` hold key 0 while key 0 is
resident in the index at slot 1. -/
theorem clockcache_duplicate_slot_keys :
    (((ClockCache.init 2).runOps
        [CacheOp.putOp 0 1, CacheOp.invalidateOp 0,
          CacheOp.putOp 0 2]).clock_keys.count (some 0) = 2) ∧
    dictLookup ((ClockCache.init 2).runOps
        [CacheOp.putOp 0 1, CacheOp.invalidateOp 0,
          CacheOp.putOp 0 2]).data 0 = some (1, 2) := by decide

/-- C6 (amended): in every state reachable by `put`/`get`/`invalidate`/
`clear` from a fresh cache of capacity >= 1, each key has at most one
entry in the `data` index, distinct resident keys occupy distinct slot
positions, and the slot recorded for each resident key holds exactly
that key; however a `clock_keys` cell may retain a stale key that is no
longer in the index (and after re-insertion the same key may appear in
several cells), so index membership agrees with the slot the index
records, not with arbitrary `clock_keys` occurrences. -/
theorem clockcache_index_slot_agreement (cap : Nat) (hcap : 1 ≤ cap)
    (ops : List CacheOp) :
    (∀ e1 ∈ ((ClockCache.init cap).runOps ops).data,
      ∀ e2 ∈ ((ClockCache.init cap).runOps ops).data,
        (e1.1 = e2.1 → e1 = e2) ∧ (e1.2.1 = e2.2.1 → e1 = e2)) ∧
    (∀ e ∈ ((ClockCache.init cap).runOps ops).data,
      ((ClockCache.init cap).runOps ops).clock_keys.getD e.2.1 none =
        some e.1) := by
  have hwf := ClockCache.runOps_WF ops (ClockCache.WF_init hcap)
  obtain ⟨h1, h2, h3, h4, h5, h6⟩ := hwf
  refine ⟨?_, fun e he => (h6 e he).2⟩
  intro e1 he1 e2 he2
  constructor
  · intro hk
    exact List.inj_on_of_nodup_map h5 he1 he2 hk
  · intro hp
    have hk1 := (h6 e1 he1).2
    have hk2 := (h6 e2 he2).2
    rw [hp, hk2] at hk1
    exact List.inj_on_of_nodup_map h5 he1 he2 (Option.some.inj hk1).symm

/-- Witness for C6 (amended) at capacity 1 after one put. -/
theorem clockcache_index_slot_agreement_witness :
    1 ≤ 1 ∧
    ((∀ e1 ∈ ((ClockCache.init 1).runOps [CacheOp.putOp 0 1]).data,
      ∀ e2 ∈ ((ClockCache.init 1).runOps [CacheOp.putOp 0 1]).data,
        (e1.1 = e2.1 → e1 = e2) ∧ (e1.2.1 = e2.2.1 → e1 = e2)) ∧
    (∀ e ∈ ((ClockCache.init 1).runOps [CacheOp.putOp 0 1]).data,
      ((ClockCache.init 1).runOps [CacheOp.putOp 0 1]).clock_keys.getD e.2.1
        none = some e.1)) :=
  ⟨by decide, clockcache_index_slot_agreement 1 (by decide)
    [CacheOp.putOp 0 1]⟩

/-- C7: for every well-formed state, after `put(k, v)` then
`invalidate(k)`, `get(k, default)` returns the default; `invalidate`
removes the key from the index when present and clears that slot's
reference bit, is a no-op when the key is absent, and never changes the
`evictions`/`hits`/`misses`/`lookups` counters. -/
theorem clockcache_invalidate_spec (c : ClockCache) (k : Key) (v : Val)
    (d : Option Val) (hwf : c.WF) :
    ((((c.put k v).state.invalidate k).get k d).1 = d) ∧
    dictLookup (c.invalidate k).data k = none ∧
    (∀ pos w, dictLookup c.data k = some (pos, w) →
      (c.invalidate k).clock_refs.getD pos false = false) ∧
    (dictLookup c.data k = none → c.invalidate k = c) ∧
    (c.invalidate k).evictions = c.evictions ∧
    (c.invalidate k).hits = c.hits ∧
    (c.invalidate k).misses = c.misses ∧
    (c.invalidate k).lookups = c.lookups := by
  obtain ⟨g1, g2, g3, g4, g5, g6, g7, g8⟩ := ClockCache.invalidate_state c k
  refine ⟨?_, ?_, ?_, ?_, g5, g6, g7, g8⟩
  · have hput := ClockCache.WF_put hwf k v
    have hnone := ClockCache.invalidate_lookup_none hput.2.2.2.2.1 k
    exact ClockCache.get_of_lookup_none d hnone
  · exact ClockCache.invalidate_lookup_none hwf.2.2.2.2.1 k
  · intro pos w hl
    have hmem := dictLookup_mem hl
    have hlt : pos < c.clock_refs.length := by
      rw [hwf.2.2.1]
      exact (hwf.2.2.2.2.2 (k, (pos, w)) hmem).1
    exact ClockCache.invalidate_clears_ref hlt hl
  · exact fun h => ClockCache.invalidate_of_lookup_none h

/-- Witness for C7 on a fresh capacity-2 cache. -/
theorem clockcache_invalidate_spec_witness :
    (ClockCache.init 2).WF ∧
    (((((ClockCache.init 2).put 0 5).state.invalidate 0).get 0
        (some 9)).1 = some 9) ∧
    dictLookup ((ClockCache.init 2).invalidate 0).data 0 = none ∧
    (∀ pos w, dictLookup (ClockCache.init 2).data 0 = some (pos, w) →
      ((ClockCache.init 2).invalidate 0).clock_refs.getD pos false = false) ∧
    (dictLookup (ClockCache.init 2).data 0 = none →
      (ClockCache.init 2).invalidate 0 = ClockCache.init 2) ∧
    ((ClockCache.init 2).invalidate 0).evictions =
      (ClockCache.init 2).evictions ∧
    ((ClockCache.init 2).invalidate 0).hits = (ClockCache.init 2).hits ∧
    ((ClockCache.init 2).invalidate 0).misses = (ClockCache.init 2).misses ∧
    ((ClockCache.init 2).invalidate 0).lookups =
      (ClockCache.init 2).lookups :=
  ⟨by decide, clockcache_invalidate_spec (ClockCache.init 2) 0 5 (some 9)
    (by decide)⟩

/-- C8: from any state whatsoever, `clear()` resets the structure
fully: it yields exactly the freshly-constructed state of the same
capacity — every slot unoccupied, empty index, hand 0, all four
counters 0 — and a subsequent `get` on any key returns the default. -/
theorem clockcache_clear_resets (c : ClockCache) (k : Key) (d : Option Val) :
    c.clear = ClockCache.init c.size ∧ (c.clear.get k d).1 = d ∧
    c.clear.hits = 0 ∧ c.clear.misses = 0 ∧ c.clear.lookups = 0 ∧
    c.clear.evictions = 0 ∧ c.clear.hand = 0 ∧
    c.clear.clock_keys = List.replicate c.size none ∧ c.clear.data = [] := by
  refine ⟨rfl, ?_, rfl, rfl, rfl, rfl, rfl, rfl, rfl⟩
  exact ClockCache.get_of_lookup_none d rfl

/-- C9: for every `ClockCache` state and every sequence of `get` calls
with no intervening mutation, the hit/miss/lookup counters advance by
exactly the number of hits, the number of misses, and the total number
of calls, with hits + misses = calls. -/
theorem clockcache_get_counter_correctness (c : ClockCache) (ks : List Key) :
    (c.runGets ks).hits = c.hits + c.hitCount ks ∧
    (c.runGets ks).misses = c.misses + c.missCount ks ∧
    (c.runGets ks).lookups = c.lookups + ks.length ∧
    c.hitCount ks + c.missCount ks = ks.length := by
  induction ks generalizing c with
  | nil =>
    simp [ClockCache.runGets, ClockCache.hitCount, ClockCache.missCount]
  | cons k rest ih =>
    have hdata := (ClockCache.get_state c k none).2.1
    obtain ⟨ihh, ihm, ihl, ihn⟩ := ih ((c.get k none).2)
    have hcg := ClockCache.hitCount_congr hdata rest
    have mcg := ClockCache.missCount_congr hdata rest
    have hc := ClockCache.hitCount_cons c k rest
    have mc := ClockCache.missCount_cons c k rest
    cases hl : dictLookup c.data k with
    | none =>
      obtain ⟨g1, g2, g3⟩ := ClockCache.get_miss_counters (c := c) none hl
      rw [hl] at hc mc
      simp only [Option.isSome_none, Bool.false_eq_true, if_false] at hc mc
      refine ⟨?_, ?_, ?_, ?_⟩
      · rw [ClockCache.runGets]; omega
      · rw [ClockCache.runGets]; omega
      · rw [ClockCache.runGets, List.length_cons]; omega
      · rw [List.length_cons]; omega
    | some pv =>
      obtain ⟨g1, g2, g3⟩ := ClockCache.get_hit_counters (c := c) none hl
      rw [hl] at hc mc
      simp only [Option.isSome_some, if_true] at hc mc
      refine ⟨?_, ?_, ?_, ?_⟩
      · rw [ClockCache.runGets]; omega
      · rw [ClockCache.runGets]; omega
      · rw [ClockCache.runGets, List.length_cons]; omega
      · rw [List.length_cons]; omega

/-- C10: the statement `from futile.cache import Cache,
_DEFAULT_TIMEOUT` in `futile/cache/expiring_cache.py` requests a name
that `futile/cache.py` never binds, so loading the module fails before
the `class ExpiringCache` definition executes, and no `ExpiringCache`
instance can ever be built. -/
theorem expiring_cache_import_fails :
    expiringCacheModuleLoads = false ∧
      "_DEFAULT_TIMEOUT" ∈ expiringCacheRequestedNames ∧
      "_DEFAULT_TIMEOUT" ∉ futileCacheTopLevelNames := by decide

end Futile
